import Mathlib

/-!
# Verification of the Spattering stipple-generation engine

Shallow embedding of the core numeric routines of the Spattering repository
(`src/utils.py`, `src/preprocessing.py`, and the `_relax_points` /
`_postprocess` / `_genRandomPointsOnBlackUniformly` methods of the three
stipple-generator classes), together with theorems settling the behavioural
claims about them.

Conventions used throughout:
* float arithmetic on exactly-representable values is modelled by `ℚ`
  (all operations appearing in the relaxation / post-processing paths are
  field operations and floors, exact on rationals);
* transcendental float arithmetic (`atan2`, `sqrt`, `exp`, `cos`, `sin`)
  is modelled over `ℝ`;
* pixel coordinates are `(row, column)` pairs, as in the source;
* fallible operations (float division with zero denominator, `cv2.minMaxLoc`
  on an empty matrix) are modelled with `Option`, `none` being the
  nan / exception outcome.
-/

namespace Spattering

/-! ## Geometry utilities (`src/utils.py`)

`polygon_area` and `polygon_centroid` operate on a list of `(y, x)` vertex
pairs.  The Python loop accumulates `vertices[i][1] * vertices[i+1][0] -
vertices[i+1][1] * vertices[i][0]`, i.e. `x_i * y_{i+1} - x_{i+1} * y_i`
cyclically; we express the accumulation as the sum over indices. -/

/-- Cyclic successor access: `vs[(i+1) % len vs]`, like the Python
`(vert_index + 1) % len(vertices)` index. -/
def cyclicNext (vs : List (ℚ × ℚ)) (i : ℕ) : ℚ × ℚ :=
  vs.getD ((i + 1) % vs.length) (0, 0)

/-- `polygon_area` of `src/utils.py`: the shoelace sum
`Σ (x_i * y_{i+1} - x_{i+1} * y_i) / 2` over `(y, x)` vertex pairs. -/
def polygon_area (vs : List (ℚ × ℚ)) : ℚ :=
  (((List.range vs.length).map (fun i =>
    (vs.getD i (0, 0)).2 * (cyclicNext vs i).1
      - (cyclicNext vs i).2 * (vs.getD i (0, 0)).1)).sum) / 2

/-- The per-edge `factor` of `polygon_centroid`:
`x_i * y_{i+1} - x_{i+1} * y_i`. -/
def centroidFactor (vs : List (ℚ × ℚ)) (i : ℕ) : ℚ :=
  (vs.getD i (0, 0)).2 * (cyclicNext vs i).1 - (cyclicNext vs i).2 * (vs.getD i (0, 0)).1

/-- `polygon_centroid` of `src/utils.py`, returned as `(cy, cx)` (the Python
function returns `[cy, cx]`).  The Python code divides by `6 * signed_area`
unconditionally; with numpy floats a zero signed area produces nan/inf
coordinates, which we model as `none`. -/
def polygon_centroid (vs : List (ℚ × ℚ)) : Option (ℚ × ℚ) :=
  let signed_area := polygon_area vs
  let cx := ((List.range vs.length).map (fun i =>
    ((vs.getD i (0, 0)).2 + (cyclicNext vs i).2) * centroidFactor vs i)).sum
  let cy := ((List.range vs.length).map (fun i =>
    ((vs.getD i (0, 0)).1 + (cyclicNext vs i).1) * centroidFactor vs i)).sum
  if signed_area = 0 then none
  else some (cy / (6 * signed_area), cx / (6 * signed_area))

/-! ## Foreground-biased point sampler
(`AbstractStippleGenerator._genRandomPointsOnBlackUniformly`)

The Python method loops `while len(coordinates) < numPoints`, drawing a
uniform coordinate and appending it only when the pixel is not 255.  We model
the random draws as an arbitrary stream `rng : ℕ → ℕ × ℕ` (taken modulo the
image dimensions, mirroring `np.random.randint(0, shape)`), and give the loop
explicit fuel: `none` means the fuel ran out with the loop still running. -/

def genRandomPointsOnBlackUniformly (H W : ℕ) (pix : ℕ → ℕ → ℕ) (numPoints : ℕ)
    (rng : ℕ → ℕ × ℕ) : ℕ → ℕ → List (ℕ × ℕ) → Option (List (ℕ × ℕ))
  | 0, _, _ => none
  | fuel + 1, k, acc =>
    if numPoints ≤ acc.length then some acc.reverse
    else
      let y := (rng k).1 % H
      let x := (rng k).2 % W
      if pix y x ≠ 255 then
        genRandomPointsOnBlackUniformly H W pix numPoints rng fuel (k + 1) ((y, x) :: acc)
      else
        genRandomPointsOnBlackUniformly H W pix numPoints rng fuel (k + 1) acc

/-- On an all-background image the sampler's accept branch is never taken, so
the accumulator never grows: whenever fewer points than requested have been
accepted, every amount of additional fuel still ends with the loop running. -/
lemma genOnBlack_allWhite_none (H W : ℕ) (pix : ℕ → ℕ → ℕ) (numPoints : ℕ)
    (rng : ℕ → ℕ × ℕ) (hwhite : ∀ y x, pix y x = 255) :
    ∀ fuel k acc, acc.length < numPoints →
      genRandomPointsOnBlackUniformly H W pix numPoints rng fuel k acc = none := by
  intro fuel
  induction fuel with
  | zero => intro k acc _; rfl
  | succ n ih =>
    intro k acc hlt
    unfold genRandomPointsOnBlackUniformly
    rw [if_neg (by omega)]
    simp only [hwhite, ne_eq, not_true_eq_false, if_false]
    exact ih (k + 1) acc hlt

/-! ## Variant B relaxation
(`StandardStippleGenerator._relax_points`, lines 88–106, and the identical
position-update logic of `StippleGeneratorV2._relax_points`, lines 91–117;
the V2 method additionally tracks per-point counts/average weights used only
for the radius remap, which does not affect positions)

One iteration: build a KD-tree over the integer point set, scan every pixel
`(y, x)` of the image accumulating `weight = 1 - intensity / 255` and the
weighted coordinates into the nearest point's accumulators, derive each
point's centroid (its own position when its weight is zero), and move each
point to `floor(p + 0.25 * (centroid - p))`. -/

/-- Squared Euclidean distance between integer points.  The `cKDTree.query`
and `scipy.spatial.distance.euclidean` calls compare true Euclidean
distances; on exact arithmetic those comparisons coincide with comparisons
of the squares, which stay in `ℤ`. -/
def distSqZ (p q : ℤ × ℤ) : ℤ :=
  (p.1 - q.1) ^ 2 + (p.2 - q.2) ^ 2

/-- `tree.query(np.array([y, x]))` for `tree = cKDTree(pts)`: the index of
the point nearest to pixel `(y, x)` (lowest index on exact ties). -/
def nearestIdx (pts : List (ℤ × ℤ)) (y x : ℕ) : ℕ :=
  (List.range pts.length).foldl (fun best i =>
    if distSqZ (pts.getD i (0, 0)) ((y : ℤ), (x : ℤ))
        < distSqZ (pts.getD best (0, 0)) ((y : ℤ), (x : ℤ)) then i else best) 0

/-- The pixels of an `H × W` image in the scan order of the nested
`for y ... for x ...` loops. -/
def pixList (H W : ℕ) : List (ℕ × ℕ) :=
  (List.range H).product (List.range W)

/-- Per-pixel weight `1 - self.image[y,x] / 255`. -/
def pixWeight (pix : ℕ → ℕ → ℕ) (p : ℕ × ℕ) : ℚ :=
  1 - (pix p.1 p.2 : ℚ) / 255

/-- `acc[i] += d` on a function-modelled accumulator array. -/
def updAcc (f : ℕ → ℚ) (i : ℕ) (d : ℚ) : ℕ → ℚ :=
  fun j => if j = i then f j + d else f j

/-- One step of the pixel scan: add `weight`, `y * weight` and `x * weight`
to the accumulators of the nearest point. -/
def scanStep (pix : ℕ → ℕ → ℕ) (pts : List (ℤ × ℤ))
    (acc : (ℕ → ℚ) × (ℕ → ℚ) × (ℕ → ℚ)) (p : ℕ × ℕ) :
    (ℕ → ℚ) × (ℕ → ℚ) × (ℕ → ℚ) :=
  let i := nearestIdx pts p.1 p.2
  let w := pixWeight pix p
  (updAcc acc.1 i w, updAcc acc.2.1 i ((p.1 : ℚ) * w), updAcc acc.2.2 i ((p.2 : ℚ) * w))

/-- The full pixel scan of one Variant B iteration: `weights`,
`centroids[·][0]` and `centroids[·][1]` after the nested pixel loops. -/
def scanAcc (H W : ℕ) (pix : ℕ → ℕ → ℕ) (pts : List (ℤ × ℤ)) :
    (ℕ → ℚ) × (ℕ → ℚ) × (ℕ → ℚ) :=
  (pixList H W).foldl (scanStep pix pts) (fun _ => 0, fun _ => 0, fun _ => 0)

/-- Accumulated weight of point `i` after the scan. -/
def weightsOf (H W : ℕ) (pix : ℕ → ℕ → ℕ) (pts : List (ℤ × ℤ)) (i : ℕ) : ℚ :=
  (scanAcc H W pix pts).1 i

/-- Centroid of point `i`: its own position when its accumulated weight is
zero, else the weighted coordinate sums divided by the weight. -/
def centroidOf (H W : ℕ) (pix : ℕ → ℕ → ℕ) (pts : List (ℤ × ℤ)) (i : ℕ) : ℚ × ℚ :=
  let p := pts.getD i (0, 0)
  if weightsOf H W pix pts i = 0 then ((p.1 : ℚ), (p.2 : ℚ))
  else ((scanAcc H W pix pts).2.1 i / weightsOf H W pix pts i,
        (scanAcc H W pix pts).2.2 i / weightsOf H W pix pts i)

/-- One Variant B relaxation iteration:
`retVal = np.floor(retVal + .25 * (centroids - retVal)).astype(int)`. -/
def relaxIterB (H W : ℕ) (pix : ℕ → ℕ → ℕ) (pts : List (ℤ × ℤ)) : List (ℤ × ℤ) :=
  (List.range pts.length).map (fun i =>
    let p := pts.getD i (0, 0)
    let c := centroidOf H W pix pts i
    (⌊(p.1 : ℚ) + 1/4 * (c.1 - (p.1 : ℚ))⌋, ⌊(p.2 : ℚ) + 1/4 * (c.2 - (p.2 : ℚ))⌋))

/-! ### Scatter-add accounting for the pixel scan -/

/-- Evaluating a fold of single-index accumulator updates: the result at `j`
is the initial value plus the sum of the contributions of the elements
keyed to `j`. -/
lemma foldl_updAcc_eval (key : α → ℕ) (val : α → ℚ) :
    ∀ (L : List α) (f : ℕ → ℚ) (j : ℕ),
      (L.foldl (fun g a => updAcc g (key a) (val a)) f) j
        = f j + ((L.filter (fun a => key a = j)).map val).sum := by
  intro L
  induction L with
  | nil => intro f j; simp
  | cons a L ih =>
    intro f j
    rw [List.foldl_cons, ih, List.filter_cons]
    by_cases h : key a = j
    · subst h
      simp [updAcc, add_assoc]
    · simp [updAcc, h, Ne.symm h]

/-- First component of the scan fold evolves independently. -/
lemma scanAcc_fst (pix : ℕ → ℕ → ℕ) (pts : List (ℤ × ℤ)) :
    ∀ (L : List (ℕ × ℕ)) (acc : (ℕ → ℚ) × (ℕ → ℚ) × (ℕ → ℚ)),
      (L.foldl (scanStep pix pts) acc).1
        = L.foldl (fun g a => updAcc g (nearestIdx pts a.1 a.2) (pixWeight pix a)) acc.1 := by
  intro L
  induction L with
  | nil => intro acc; rfl
  | cons a L ih => intro acc; rw [List.foldl_cons, List.foldl_cons, ih]; rfl

/-- Second component (weighted row sums) of the scan fold. -/
lemma scanAcc_snd₁ (pix : ℕ → ℕ → ℕ) (pts : List (ℤ × ℤ)) :
    ∀ (L : List (ℕ × ℕ)) (acc : (ℕ → ℚ) × (ℕ → ℚ) × (ℕ → ℚ)),
      (L.foldl (scanStep pix pts) acc).2.1
        = L.foldl (fun g a =>
            updAcc g (nearestIdx pts a.1 a.2) ((a.1 : ℚ) * pixWeight pix a)) acc.2.1 := by
  intro L
  induction L with
  | nil => intro acc; rfl
  | cons a L ih => intro acc; rw [List.foldl_cons, List.foldl_cons, ih]; rfl

/-- Third component (weighted column sums) of the scan fold. -/
lemma scanAcc_snd₂ (pix : ℕ → ℕ → ℕ) (pts : List (ℤ × ℤ)) :
    ∀ (L : List (ℕ × ℕ)) (acc : (ℕ → ℚ) × (ℕ → ℚ) × (ℕ → ℚ)),
      (L.foldl (scanStep pix pts) acc).2.2
        = L.foldl (fun g a =>
            updAcc g (nearestIdx pts a.1 a.2) ((a.2 : ℚ) * pixWeight pix a)) acc.2.2 := by
  intro L
  induction L with
  | nil => intro acc; rfl
  | cons a L ih => intro acc; rw [List.foldl_cons, List.foldl_cons, ih]; rfl

/-- The pixels assigned to point `i` by the nearest-point query. -/
def assignedPixels (H W : ℕ) (pts : List (ℤ × ℤ)) (i : ℕ) : List (ℕ × ℕ) :=
  (pixList H W).filter (fun a => nearestIdx pts a.1 a.2 = i)

lemma weightsOf_eq_sum (H W : ℕ) (pix : ℕ → ℕ → ℕ) (pts : List (ℤ × ℤ)) (i : ℕ) :
    weightsOf H W pix pts i = ((assignedPixels H W pts i).map (pixWeight pix)).sum := by
  unfold weightsOf scanAcc assignedPixels
  rw [scanAcc_fst, foldl_updAcc_eval]
  simp

lemma scanAcc_y_eq_sum (H W : ℕ) (pix : ℕ → ℕ → ℕ) (pts : List (ℤ × ℤ)) (i : ℕ) :
    (scanAcc H W pix pts).2.1 i
      = ((assignedPixels H W pts i).map (fun a => (a.1 : ℚ) * pixWeight pix a)).sum := by
  unfold scanAcc assignedPixels
  rw [scanAcc_snd₁, foldl_updAcc_eval]
  simp

lemma scanAcc_x_eq_sum (H W : ℕ) (pix : ℕ → ℕ → ℕ) (pts : List (ℤ × ℤ)) (i : ℕ) :
    (scanAcc H W pix pts).2.2 i
      = ((assignedPixels H W pts i).map (fun a => (a.2 : ℚ) * pixWeight pix a)).sum := by
  unfold scanAcc assignedPixels
  rw [scanAcc_snd₂, foldl_updAcc_eval]
  simp

/-! ### Bounds facts for Variant B -/

lemma mem_pixList {H W : ℕ} {a : ℕ × ℕ} (ha : a ∈ pixList H W) : a.1 < H ∧ a.2 < W := by
  obtain ⟨y, x⟩ := a
  simpa [pixList, List.mem_product, List.mem_range] using ha

lemma centroidOf_of_weight_zero {H W : ℕ} {pix : ℕ → ℕ → ℕ} {pts : List (ℤ × ℤ)} {i : ℕ}
    (hw : weightsOf H W pix pts i = 0) :
    centroidOf H W pix pts i
      = (((pts.getD i (0, 0)).1 : ℚ), ((pts.getD i (0, 0)).2 : ℚ)) := by
  simp only [centroidOf]
  rw [if_pos hw]

lemma centroidOf_of_weight_ne {H W : ℕ} {pix : ℕ → ℕ → ℕ} {pts : List (ℤ × ℤ)} {i : ℕ}
    (hw : ¬ weightsOf H W pix pts i = 0) :
    centroidOf H W pix pts i
      = ((scanAcc H W pix pts).2.1 i / weightsOf H W pix pts i,
         (scanAcc H W pix pts).2.2 i / weightsOf H W pix pts i) := by
  simp only [centroidOf]
  rw [if_neg hw]

lemma pixWeight_nonneg {pix : ℕ → ℕ → ℕ} (hpix : ∀ y x, pix y x ≤ 255) (a : ℕ × ℕ) :
    0 ≤ pixWeight pix a := by
  have h : (pix a.1 a.2 : ℚ) ≤ 255 := by exact_mod_cast hpix a.1 a.2
  have : (pix a.1 a.2 : ℚ) / 255 ≤ 1 := by
    rw [div_le_one (by norm_num)]; exact h
  simp only [pixWeight]
  linarith

/-- The weighted-average centroid of Variant B lies inside the image
rectangle whenever all pixel intensities fit in a byte and the current
points do. -/
lemma centroidOf_bounds (H W : ℕ) (pix : ℕ → ℕ → ℕ) (pts : List (ℤ × ℤ)) (i : ℕ)
    (hpix : ∀ y x, pix y x ≤ 255)
    (hp : 0 ≤ (pts.getD i (0, 0)).1 ∧ (pts.getD i (0, 0)).1 ≤ (H : ℤ) - 1 ∧
          0 ≤ (pts.getD i (0, 0)).2 ∧ (pts.getD i (0, 0)).2 ≤ (W : ℤ) - 1) :
    0 ≤ (centroidOf H W pix pts i).1 ∧ (centroidOf H W pix pts i).1 ≤ (H : ℚ) - 1 ∧
    0 ≤ (centroidOf H W pix pts i).2 ∧ (centroidOf H W pix pts i).2 ≤ (W : ℚ) - 1 := by
  obtain ⟨hp1, hp2, hp3, hp4⟩ := hp
  by_cases hw : weightsOf H W pix pts i = 0
  · rw [centroidOf_of_weight_zero hw]
    dsimp only
    refine ⟨by exact_mod_cast hp1, ?_, by exact_mod_cast hp3, ?_⟩
    · have : ((pts.getD i (0, 0)).1 : ℚ) ≤ ((H : ℤ) - 1 : ℤ) := by exact_mod_cast hp2
      push_cast at this ⊢; linarith
    · have : ((pts.getD i (0, 0)).2 : ℚ) ≤ ((W : ℤ) - 1 : ℤ) := by exact_mod_cast hp4
      push_cast at this ⊢; linarith
  · rw [centroidOf_of_weight_ne hw]
    have hwnn : ∀ a ∈ assignedPixels H W pts i, 0 ≤ pixWeight pix a :=
      fun a _ => pixWeight_nonneg hpix a
    have hsumnn : 0 ≤ ((assignedPixels H W pts i).map (pixWeight pix)).sum := by
      apply List.sum_nonneg
      intro q hq
      obtain ⟨a, ha, rfl⟩ := List.mem_map.mp hq
      exact hwnn a ha
    have hpos : 0 < weightsOf H W pix pts i := by
      rw [weightsOf_eq_sum] at hw ⊢
      exact lt_of_le_of_ne hsumnn (Ne.symm hw)
    have hwsum := weightsOf_eq_sum H W pix pts i
    constructor
    · rw [scanAcc_y_eq_sum]
      apply div_nonneg _ (le_of_lt hpos)
      apply List.sum_nonneg
      intro q hq
      obtain ⟨a, ha, rfl⟩ := List.mem_map.mp hq
      exact mul_nonneg (by positivity) (hwnn a ha)
    refine ⟨?_, ?_, ?_⟩
    · rw [scanAcc_y_eq_sum, div_le_iff₀ hpos, hwsum, ← List.sum_map_mul_left]
      apply List.sum_le_sum
      intro a ha
      have haH : a.1 < H := (mem_pixList (List.mem_filter.mp ha).1).1
      have : (a.1 : ℚ) ≤ (H : ℚ) - 1 := by
        have : (a.1 : ℚ) + 1 ≤ (H : ℚ) := by exact_mod_cast Nat.succ_le_of_lt haH
        linarith
      exact mul_le_mul_of_nonneg_right this (hwnn a ha)
    · rw [scanAcc_x_eq_sum]
      apply div_nonneg _ (le_of_lt hpos)
      apply List.sum_nonneg
      intro q hq
      obtain ⟨a, ha, rfl⟩ := List.mem_map.mp hq
      exact mul_nonneg (by positivity) (hwnn a ha)
    · rw [scanAcc_x_eq_sum, div_le_iff₀ hpos, hwsum, ← List.sum_map_mul_left]
      apply List.sum_le_sum
      intro a ha
      have haW : a.2 < W := (mem_pixList (List.mem_filter.mp ha).1).2
      have : (a.2 : ℚ) ≤ (W : ℚ) - 1 := by
        have : (a.2 : ℚ) + 1 ≤ (W : ℚ) := by exact_mod_cast Nat.succ_le_of_lt haW
        linarith
      exact mul_le_mul_of_nonneg_right this (hwnn a ha)

/-- The damped floor step `⌊p + 0.25 * (c - p)⌋` stays inside `[0, M]` when
both the current coordinate and the centroid coordinate do. -/
lemma floor_step_bounds (p : ℤ) (c : ℚ) (M : ℤ)
    (hp0 : 0 ≤ p) (hpM : p ≤ M) (hc0 : 0 ≤ c) (hcM : c ≤ (M : ℚ)) :
    0 ≤ ⌊(p : ℚ) + 1/4 * (c - (p : ℚ))⌋ ∧ ⌊(p : ℚ) + 1/4 * (c - (p : ℚ))⌋ ≤ M := by
  have hpq0 : (0 : ℚ) ≤ (p : ℚ) := by exact_mod_cast hp0
  have hpqM : (p : ℚ) ≤ (M : ℚ) := by exact_mod_cast hpM
  constructor
  · apply Int.le_floor.mpr
    push_cast
    linarith
  · have h : (p : ℚ) + 1/4 * (c - (p : ℚ)) ≤ (M : ℚ) := by linarith
    have := Int.floor_le_floor h
    rwa [Int.floor_intCast] at this

/-! ## Variant A relaxation
(`PreprocessingStippleGenerator._relax_points`, lines 136–175)

The scipy `Voronoi` diagram consulted by an iteration is a data input here
(`VorData`): `point_region` maps a point index to its region index,
`regions` lists each region's vertex indices (`-1` is scipy's sentinel for
a vertex at infinity), and `vertices` holds the vertex coordinates as
`(y, x)` pairs.  The per-point update logic below it is embedded exactly.

The flow-bias displacement
`(int(magnitudes[y,x] * np.sin(np.radians(angles[y,x]))),
  int(magnitudes[y,x] * np.cos(np.radians(angles[y,x]))))`
is an integer pair computed from the flow field; it enters the update only
as an additive integer term, so we pass it as a function
`bias : ℤ → ℤ → ℤ × ℤ` of the pixel and prove the claims for every value
of it. -/

structure VorData where
  point_region : List ℕ
  regions : List (List ℤ)
  vertices : List (ℚ × ℚ)

/-- `voronoi.regions[voronoi.point_region[point_index]]`. -/
def vorRegion (V : VorData) (i : ℕ) : List ℤ :=
  V.regions.getD (V.point_region.getD i 0) []

/-- `np.clip(v, lo, hi)` = `maximum(minimum(v, hi), lo)`. -/
def clipQ (v lo hi : ℚ) : ℚ :=
  max lo (min v hi)

/-- Storing a float into a numpy integer array truncates toward zero. -/
def pyTruncQ (q : ℚ) : ℤ :=
  if 0 ≤ q then ⌊q⌋ else ⌈q⌉

/-- One Variant A per-point update (the body of the
`for point_index in range(len(retVal))` loop).  `some` is the stored value
of `retVal[point_index]` after the loop body; `none` is the undefined
(nan/inf) outcome of a zero-area region's centroid reaching the division.
Each point's entry is written at most once per iteration, so one iteration
maps `relaxStepA` over the indexed points. -/
def relaxStepA (H W : ℕ) (pix : ℤ → ℤ → ℕ) (V : VorData) (bias : ℤ → ℤ → ℤ × ℤ)
    (i : ℕ) (p : ℤ × ℤ) : Option (ℤ × ℤ) :=
  if pix p.1 p.2 = 255 then some p
  else if vorRegion V i = [] ∨ (-1 : ℤ) ∈ vorRegion V i then some p
  else
    match polygon_centroid ((vorRegion V i).map (fun vi => V.vertices.getD vi.toNat (0, 0))) with
    | none => none
    | some c =>
      if pix p.1 p.2 ≠ 0 then
        some (pyTruncQ (clipQ ((c.1 + (p.1 : ℚ) + (p.1 : ℚ) + ((bias p.1 p.2).1 : ℚ)) / 3)
                0 ((H : ℚ) - 1)),
              pyTruncQ (clipQ ((c.2 + (p.2 : ℚ) + (p.2 : ℚ) + ((bias p.1 p.2).2 : ℚ)) / 3)
                0 ((W : ℚ) - 1)))
      else
        some (pyTruncQ (clipQ ((c.1 + (p.1 : ℚ)) / 2) 0 ((H : ℚ) - 1)),
              pyTruncQ (clipQ ((c.2 + (p.2 : ℚ)) / 2) 0 ((W : ℚ) - 1)))

/-- `int(np.clip(v, 0, M))` lies in `[0, M]` for every `v` once `0 ≤ M`. -/
lemma pyTruncQ_clipQ_bounds (v : ℚ) (M : ℤ) (hM : 0 ≤ M) :
    0 ≤ pyTruncQ (clipQ v 0 (M : ℚ)) ∧ pyTruncQ (clipQ v 0 (M : ℚ)) ≤ M := by
  have hMq : (0 : ℚ) ≤ (M : ℚ) := by exact_mod_cast hM
  have hc0 : 0 ≤ clipQ v 0 (M : ℚ) := le_max_left _ _
  have hcM : clipQ v 0 (M : ℚ) ≤ (M : ℚ) := max_le hMq (min_le_right _ _)
  have htr : pyTruncQ (clipQ v 0 (M : ℚ)) = ⌊clipQ v 0 (M : ℚ)⌋ := if_pos hc0
  rw [htr]
  constructor
  · exact Int.le_floor.mpr (by exact_mod_cast hc0)
  · have := Int.floor_le_floor hcM
    rwa [Int.floor_intCast] at this

/-! ## Claim theorems (first batch) -/

/-- C9: on the unit square, listed as `(0,0),(0,1),(1,1),(1,0)`, the shoelace
area is `1.0` and the centroid is `(0.5, 0.5)`. -/
theorem utils_unit_square_area_centroid :
    polygon_area [(0, 0), (0, 1), (1, 1), (1, 0)] = 1 ∧
    polygon_centroid [(0, 0), (0, 1), (1, 1), (1, 0)] = some (1/2, 1/2) := by
  constructor
  · norm_num [polygon_area, cyclicNext, List.range_succ]
  · norm_num [polygon_centroid, polygon_area, centroidFactor, cyclicNext, List.range_succ]

/-- C3: the foreground-biased sampler never terminates on an all-background
image.  For every image whose pixels are all 255, every requested point count
`numPoints ≥ 1`, every random stream and every finite retry budget, the
`while len(coordinates) < numPoints` loop is still running when the budget is
exhausted — the code has no retry cap and never raises an
`EmptyForegroundError` (no such error exists in the repository). -/
theorem sampler_allWhite_never_terminates (H W : ℕ) (pix : ℕ → ℕ → ℕ)
    (numPoints : ℕ) (rng : ℕ → ℕ × ℕ) (h1 : 1 ≤ numPoints)
    (hwhite : ∀ y x, pix y x = 255) :
    ∀ fuel k, genRandomPointsOnBlackUniformly H W pix numPoints rng fuel k [] = none := by
  intro fuel k
  exact genOnBlack_allWhite_none H W pix numPoints rng hwhite fuel k [] (by simpa using h1)

/-- Witness for C3: a 10×10 all-white image with `numPoints = 5` and a
concrete random stream makes no progress within a budget of 1000 retries. -/
theorem sampler_allWhite_never_terminates_witness :
    genRandomPointsOnBlackUniformly 10 10 (fun _ _ => 255) 5 (fun k => (k, 7 * k)) 1000 0 []
      = none :=
  sampler_allWhite_never_terminates 10 10 (fun _ _ => 255) 5 (fun k => (k, 7 * k))
    (by decide) (fun _ _ => rfl) 1000 0

/-- C8: zero-weight no-move.  In a Variant B iteration
(`StandardStippleGenerator._relax_points` and the identical update of
`StippleGeneratorV2._relax_points`), a point whose accumulated weight is
zero gets its own position as centroid, and the damped floor step
`floor(p + 0.25 * (p - p)) = p` leaves its (integer) coordinates unchanged. -/
theorem relaxB_zero_weight_no_move (H W : ℕ) (pix : ℕ → ℕ → ℕ) (pts : List (ℤ × ℤ))
    (i : ℕ) (hi : i < pts.length) (hw : weightsOf H W pix pts i = 0) :
    (relaxIterB H W pix pts).getD i (0, 0) = pts.getD i (0, 0) := by
  unfold relaxIterB
  rw [List.getD_eq_getElem?_getD, List.getElem?_map, List.getElem?_range hi]
  simp only [Option.map_some', Option.getD_some]
  rw [centroidOf_of_weight_zero hw]
  have h1 : ((pts.getD i (0, 0)).1 : ℚ)
      + 1/4 * (((pts.getD i (0, 0)).1 : ℚ) - ((pts.getD i (0, 0)).1 : ℚ))
      = ((pts.getD i (0, 0)).1 : ℚ) := by ring
  have h2 : ((pts.getD i (0, 0)).2 : ℚ)
      + 1/4 * (((pts.getD i (0, 0)).2 : ℚ) - ((pts.getD i (0, 0)).2 : ℚ))
      = ((pts.getD i (0, 0)).2 : ℚ) := by ring
  dsimp only
  rw [h1, h2, Int.floor_intCast, Int.floor_intCast]

/-- Witness for C8: a single point on the lone pixel of a 1×1 all-white
image accumulates weight `1 - 255/255 = 0` and does not move. -/
theorem relaxB_zero_weight_no_move_witness :
    0 < [((0 : ℤ), (0 : ℤ))].length ∧
    weightsOf 1 1 (fun _ _ => 255) [(0, 0)] 0 = 0 ∧
    (relaxIterB 1 1 (fun _ _ => 255) [(0, 0)]).getD 0 (0, 0) = ((0 : ℤ), (0 : ℤ)) := by
  have hw : weightsOf 1 1 (fun _ _ => 255) [(0, 0)] 0 = 0 := by
    simp [weightsOf, scanAcc, show pixList 1 1 = [(0, 0)] from rfl, scanStep, updAcc,
      pixWeight, show nearestIdx [((0 : ℤ), (0 : ℤ))] 0 0 = 0 from rfl]
  exact ⟨by decide, hw,
    relaxB_zero_weight_no_move 1 1 (fun _ _ => 255) [(0, 0)] 0 (by decide) hw⟩

/-- C1 counterexample: the weighted nearest-point variants do **not**
freeze points on background pixels.  On the 1×2 image with pixels
`[0, 255]` and the single point at `(0, 1)` — whose own pixel is
background 255 — one Variant B iteration assigns the black pixel's weight
to the point and moves it to `(0, 0)`. -/
theorem relaxB_background_point_moves :
    (fun _ x => if x = 0 then 0 else 255 : ℕ → ℕ → ℕ) 0 1 = 255 ∧
    relaxIterB 1 2 (fun _ x => if x = 0 then 0 else 255) [(0, 1)] = [(0, 0)] ∧
    ((0 : ℤ), (0 : ℤ)) ≠ ((0 : ℤ), (1 : ℤ)) := by
  refine ⟨rfl, ?_, by decide⟩
  norm_num [relaxIterB, centroidOf, weightsOf, scanAcc,
    show pixList 1 2 = [(0, 0), (0, 1)] from rfl,
    show nearestIdx [((0 : ℤ), (1 : ℤ))] 0 0 = 0 from rfl,
    show nearestIdx [((0 : ℤ), (1 : ℤ))] 0 1 = 0 from rfl,
    scanStep, updAcc, pixWeight, List.range_succ]

/-- C1 (amended): the background-freeze invariant holds in the exact-Voronoi
variant (`PreprocessingStippleGenerator._relax_points` checks
`self.image[y,x] == 255` and skips the point before any update): a point on
a background pixel is returned unchanged, for every Voronoi diagram, every
flow-field bias and every image.  (The weighted nearest-point variants do
not have this guard; see `relaxB_background_point_moves`.) -/
theorem relaxA_background_point_frozen (H W : ℕ) (pix : ℤ → ℤ → ℕ) (V : VorData)
    (bias : ℤ → ℤ → ℤ × ℤ) (i : ℕ) (p : ℤ × ℤ) (hbg : pix p.1 p.2 = 255) :
    relaxStepA H W pix V bias i p = some p := by
  unfold relaxStepA
  rw [if_pos hbg]

/-- Witness for C1: a concrete background point is returned unchanged by the
Variant A update. -/
theorem relaxA_background_point_frozen_witness :
    (fun _ _ => 255 : ℤ → ℤ → ℕ) 2 3 = 255 ∧
    relaxStepA 5 5 (fun _ _ => 255) ⟨[0], [[0]], [(0, 0)]⟩ (fun _ _ => (0, 0)) 0 (2, 3)
      = some (2, 3) :=
  ⟨rfl, relaxA_background_point_frozen 5 5 (fun _ _ => 255) ⟨[0], [[0]], [(0, 0)]⟩
    (fun _ _ => (0, 0)) 0 (2, 3) rfl⟩

/-- C2: bounds invariant for both relaxation variants.
Variant A (`PreprocessingStippleGenerator._relax_points`): whenever the
per-point update produces a defined value from an in-bounds point, the
explicit `np.clip(·, 0, shape-1)` keeps both coordinates in
`[0, H-1] × [0, W-1]`.
Variant B (`StandardStippleGenerator._relax_points` /
`StippleGeneratorV2._relax_points`): if every point starts inside the image
rectangle and the image is a byte image, the damped floor step toward the
weighted pixel-average centroid lands inside the rectangle again. -/
theorem relax_bounds_invariant :
    (∀ (H W : ℕ) (pix : ℤ → ℤ → ℕ) (V : VorData) (bias : ℤ → ℤ → ℤ × ℤ)
       (i : ℕ) (p p' : ℤ × ℤ), 1 ≤ H → 1 ≤ W →
       0 ≤ p.1 → p.1 ≤ (H : ℤ) - 1 → 0 ≤ p.2 → p.2 ≤ (W : ℤ) - 1 →
       relaxStepA H W pix V bias i p = some p' →
       0 ≤ p'.1 ∧ p'.1 ≤ (H : ℤ) - 1 ∧ 0 ≤ p'.2 ∧ p'.2 ≤ (W : ℤ) - 1) ∧
    (∀ (H W : ℕ) (pix : ℕ → ℕ → ℕ) (pts : List (ℤ × ℤ)),
       (∀ y x, pix y x ≤ 255) →
       (∀ p ∈ pts, 0 ≤ p.1 ∧ p.1 ≤ (H : ℤ) - 1 ∧ 0 ≤ p.2 ∧ p.2 ≤ (W : ℤ) - 1) →
       ∀ q ∈ relaxIterB H W pix pts,
         0 ≤ q.1 ∧ q.1 ≤ (H : ℤ) - 1 ∧ 0 ≤ q.2 ∧ q.2 ≤ (W : ℤ) - 1) := by
  constructor
  · intro H W pix V bias i p p' hH hW hp1 hp2 hp3 hp4 h
    have hMH : (0 : ℤ) ≤ (H : ℤ) - 1 := by omega
    have hMW : (0 : ℤ) ≤ (W : ℤ) - 1 := by omega
    have hcastH : (((H : ℤ) - 1 : ℤ) : ℚ) = (H : ℚ) - 1 := by push_cast; ring
    have hcastW : (((W : ℤ) - 1 : ℤ) : ℚ) = (W : ℚ) - 1 := by push_cast; ring
    unfold relaxStepA at h
    by_cases h255 : pix p.1 p.2 = 255
    · rw [if_pos h255] at h
      obtain rfl : p = p' := Option.some.inj h
      exact ⟨hp1, hp2, hp3, hp4⟩
    · rw [if_neg h255] at h
      by_cases hreg : vorRegion V i = [] ∨ (-1 : ℤ) ∈ vorRegion V i
      · rw [if_pos hreg] at h
        obtain rfl : p = p' := Option.some.inj h
        exact ⟨hp1, hp2, hp3, hp4⟩
      · rw [if_neg hreg] at h
        cases hc : polygon_centroid ((vorRegion V i).map (fun vi => V.vertices.getD vi.toNat (0, 0))) with
        | none => rw [hc] at h; exact absurd h (by simp)
        | some c =>
          rw [hc] at h
          dsimp only at h
          by_cases h0 : pix p.1 p.2 ≠ 0
          · rw [if_pos h0] at h
            obtain rfl := (Option.some.inj h).symm
            have hy := pyTruncQ_clipQ_bounds
              ((c.1 + (p.1 : ℚ) + (p.1 : ℚ) + ((bias p.1 p.2).1 : ℚ)) / 3) ((H : ℤ) - 1) hMH
            have hx := pyTruncQ_clipQ_bounds
              ((c.2 + (p.2 : ℚ) + (p.2 : ℚ) + ((bias p.1 p.2).2 : ℚ)) / 3) ((W : ℤ) - 1) hMW
            rw [hcastH] at hy
            rw [hcastW] at hx
            exact ⟨hy.1, hy.2, hx.1, hx.2⟩
          · rw [if_neg h0] at h
            obtain rfl := (Option.some.inj h).symm
            have hy := pyTruncQ_clipQ_bounds ((c.1 + (p.1 : ℚ)) / 2) ((H : ℤ) - 1) hMH
            have hx := pyTruncQ_clipQ_bounds ((c.2 + (p.2 : ℚ)) / 2) ((W : ℤ) - 1) hMW
            rw [hcastH] at hy
            rw [hcastW] at hx
            exact ⟨hy.1, hy.2, hx.1, hx.2⟩
  · intro H W pix pts hpix hpts q hq
    unfold relaxIterB at hq
    obtain ⟨i, hi, rfl⟩ := List.mem_map.mp hq
    have hiLen : i < pts.length := List.mem_range.mp hi
    have hpmem : pts.getD i (0, 0) ∈ pts := by
      rw [List.getD_eq_getElem?_getD, List.getElem?_eq_getElem hiLen]
      exact List.getElem_mem hiLen
    have hp := hpts _ hpmem
    have hc := centroidOf_bounds H W pix pts i hpix hp
    dsimp only
    have hy := floor_step_bounds (pts.getD i (0, 0)).1 (centroidOf H W pix pts i).1
      ((H : ℤ) - 1) hp.1 hp.2.1 hc.1 (by rw [show (((H : ℤ) - 1 : ℤ) : ℚ) = (H : ℚ) - 1 by push_cast; ring]; exact hc.2.1)
    have hx := floor_step_bounds (pts.getD i (0, 0)).2 (centroidOf H W pix pts i).2
      ((W : ℤ) - 1) hp.2.2.1 hp.2.2.2 hc.2.2.1 (by rw [show (((W : ℤ) - 1 : ℤ) : ℚ) = (W : ℚ) - 1 by push_cast; ring]; exact hc.2.2.2)
    exact ⟨hy.1, hy.2, hx.1, hx.2⟩

/-- Witness for C2: both conjuncts applied at concrete inputs — a Variant A
step of a frozen background point on a 4×4 image, and a Variant B iteration
on a 1×1 black image with one point. -/
theorem relax_bounds_invariant_witness :
    (0 : ℤ) ≤ (2 : ℤ) ∧
    relaxStepA 4 4 (fun _ _ => 255) ⟨[0], [[0]], [(0, 0)]⟩ (fun _ _ => (0, 0)) 0 (2, 3)
      = some (2, 3) ∧
    ((2 : ℤ) ≤ (4 : ℤ) - 1 ∧ 0 ≤ (3 : ℤ) ∧ (3 : ℤ) ≤ (4 : ℤ) - 1) ∧
    (∀ q ∈ relaxIterB 1 1 (fun _ _ => 0) [((0 : ℤ), (0 : ℤ))],
      0 ≤ q.1 ∧ q.1 ≤ (1 : ℤ) - 1 ∧ 0 ≤ q.2 ∧ q.2 ≤ (1 : ℤ) - 1) := by
  have hA := relax_bounds_invariant.1 4 4 (fun _ _ => 255) ⟨[0], [[0]], [(0, 0)]⟩
    (fun _ _ => (0, 0)) 0 (2, 3) (2, 3) (by decide) (by decide)
    (by decide) (by decide) (by decide) (by decide) rfl
  refine ⟨by decide, rfl, ⟨hA.2.1, hA.2.2.1, hA.2.2.2⟩, ?_⟩
  intro q hq
  exact relax_bounds_invariant.2 1 1 (fun _ _ => 0) [(0, 0)] (fun _ _ => Nat.zero_le 255)
    (by intro p hp; simp at hp; subst hp; exact ⟨by decide, by decide, by decide, by decide⟩)
    q hq

/-- C5: `_relax_points` does **not** detect degenerate (zero-signed-area)
Voronoi regions.  For the collinear region `[(0,0), (1,1), (2,2)]` of a
point on a foreground pixel, the guard (`not region or -1 in region`) does
not skip, and `polygon_centroid` reaches its division by `6 * signed_area`
with `signed_area = 0` — the undefined (`none`) outcome — instead of
leaving the point unmoved (`some p`). -/
theorem relaxA_degenerate_region_not_skipped :
    polygon_area [((0 : ℚ), (0 : ℚ)), (1, 1), (2, 2)] = 0 ∧
    ¬ (vorRegion ⟨[0], [[0, 1, 2]], [(0, 0), (1, 1), (2, 2)]⟩ 0 = []
        ∨ (-1 : ℤ) ∈ vorRegion ⟨[0], [[0, 1, 2]], [(0, 0), (1, 1), (2, 2)]⟩ 0) ∧
    relaxStepA 3 3 (fun _ _ => 0) ⟨[0], [[0, 1, 2]], [(0, 0), (1, 1), (2, 2)]⟩
      (fun _ _ => (0, 0)) 0 (1, 1) = none := by
  have harea : polygon_area [((0 : ℚ), (0 : ℚ)), (1, 1), (2, 2)] = 0 := by
    norm_num [polygon_area, cyclicNext, List.range_succ]
  refine ⟨harea, by decide, ?_⟩
  have hmap : (vorRegion ⟨[0], [[0, 1, 2]], [(0, 0), (1, 1), (2, 2)]⟩ 0).map
      (fun vi => ([((0 : ℚ), (0 : ℚ)), (1, 1), (2, 2)] : List (ℚ × ℚ)).getD vi.toNat (0, 0))
      = [((0 : ℚ), (0 : ℚ)), (1, 1), (2, 2)] := by
    rfl
  have hcent : polygon_centroid [((0 : ℚ), (0 : ℚ)), (1, 1), (2, 2)] = none := by
    unfold polygon_centroid
    rw [if_pos harea]
  unfold relaxStepA
  rw [if_neg (by decide), if_neg (by decide)]
  rw [show (vorRegion ⟨[0], [[0, 1, 2]], [(0, 0), (1, 1), (2, 2)]⟩ 0).map
      (fun vi => (VorData.mk [0] [[0, 1, 2]] [(0, 0), (1, 1), (2, 2)]).vertices.getD vi.toNat (0, 0))
      = [((0 : ℚ), (0 : ℚ)), (1, 1), (2, 2)] from rfl]
  rw [hcent]

/-! ## Post-processors

Simple filter (`StandardStippleGenerator._postprocess`,
`PreprocessingStippleGenerator._postprocess`): keep the points whose pixel
is not background.

Radius-aware filter (`StippleGeneratorV2._postprocess`): process points in
order; skip a point when a coordinate is at or beyond the image shape, when
its pixel is background, or when one of the (up to 10) nearest
already-accepted points returned by `quads.QuadTree.nearest_neighbors`
(default `count=10`, ascending distance order) is at Euclidean distance at
most the sum of the two radii; otherwise insert it into the tree and the
output. -/

/-- `StandardStippleGenerator._postprocess` / the identical
`PreprocessingStippleGenerator._postprocess`: drop points on value-255
pixels. -/
def postprocessStd (pix : ℤ → ℤ → ℕ) (pts : List (ℤ × ℤ)) : List (ℤ × ℤ) :=
  pts.filter (fun p => decide (pix p.1 p.2 ≠ 255))

/-- Insert an accepted point into a list sorted by ascending squared
distance to the query point `c`. -/
def insertByDist (c : ℤ × ℤ) (a : (ℤ × ℤ) × ℚ) :
    List ((ℤ × ℤ) × ℚ) → List ((ℤ × ℤ) × ℚ)
  | [] => [a]
  | b :: bs =>
    if distSqZ a.1 c ≤ distSqZ b.1 c then a :: b :: bs else b :: insertByDist c a bs

/-- The accepted points sorted by ascending distance to `c`. -/
def sortByDist (c : ℤ × ℤ) (l : List ((ℤ × ℤ) × ℚ)) : List ((ℤ × ℤ) × ℚ) :=
  l.foldr (insertByDist c) []

/-- `tree.nearest_neighbors((x, y))` of the `quads` quad-tree with the
default `count = 10`: the ten stored points nearest to the query, in
ascending distance order. -/
def nearestNeighbors (c : ℤ × ℤ) (acc : List ((ℤ × ℤ) × ℚ)) :
    List ((ℤ × ℤ) × ℚ) :=
  (sortByDist c acc).take 10

/-- The neighbour test `euclidean(nnAsPoint, points[idx]) <= rad1 + rad2`:
on exact arithmetic `sqrt d2 ≤ s` iff `0 ≤ s` and `d2 ≤ s²`. -/
def overlapsB (c : ℤ × ℤ) (r : ℚ) (nn : (ℤ × ℤ) × ℚ) : Bool :=
  decide (0 ≤ r + nn.2) && decide (((distSqZ nn.1 c : ℤ) : ℚ) ≤ (r + nn.2) * (r + nn.2))

/-- `StippleGeneratorV2._postprocess`, lines 161–193: the greedy packing
loop.  `acc` is the content of the quad-tree / output list (insertion
order); the loop's `continue`/`break` structure over the neighbour list is
equivalent to `List.any`. -/
def postprocessV2 (H W : ℕ) (pix : ℤ → ℤ → ℕ) :
    List ((ℤ × ℤ) × ℚ) → List ((ℤ × ℤ) × ℚ) → List ((ℤ × ℤ) × ℚ)
  | [], acc => acc
  | pr :: rest, acc =>
    if (H : ℤ) ≤ pr.1.1 then postprocessV2 H W pix rest acc
    else if (W : ℤ) ≤ pr.1.2 then postprocessV2 H W pix rest acc
    else if pix pr.1.1 pr.1.2 = 255 then postprocessV2 H W pix rest acc
    else if (nearestNeighbors pr.1 acc).any (overlapsB pr.1 pr.2) then
      postprocessV2 H W pix rest acc
    else postprocessV2 H W pix rest (acc ++ [pr])

/-- The already-accepted prefix is preserved by the rest of the loop. -/
lemma postprocessV2_extends (H W : ℕ) (pix : ℤ → ℤ → ℕ) :
    ∀ (rest acc : List ((ℤ × ℤ) × ℚ)),
      ∃ t, postprocessV2 H W pix rest acc = acc ++ t := by
  intro rest
  induction rest with
  | nil => intro acc; exact ⟨[], by simp [postprocessV2]⟩
  | cons pr rest ih =>
    intro acc
    unfold postprocessV2
    split_ifs with h1 h2 h3 h4
    · exact ih acc
    · exact ih acc
    · exact ih acc
    · exact ih acc
    · obtain ⟨t, ht⟩ := ih (acc ++ [pr])
      exact ⟨pr :: t, by rw [ht, List.append_assoc]; rfl⟩

/-- The greedy packing loop only ever appends already-seen input points. -/
lemma postprocessV2_sublist (H W : ℕ) (pix : ℤ → ℤ → ℕ) :
    ∀ (rest acc : List ((ℤ × ℤ) × ℚ)),
      List.Sublist (postprocessV2 H W pix rest acc) (acc ++ rest) := by
  intro rest
  induction rest with
  | nil => intro acc; simp [postprocessV2]
  | cons pr rest ih =>
    intro acc
    have hskip : List.Sublist (postprocessV2 H W pix rest acc) (acc ++ pr :: rest) := by
      refine (ih acc).trans ?_
      exact (List.sublist_cons_self pr rest).append_left acc
    unfold postprocessV2
    split_ifs with h1 h2 h3 h4
    · exact hskip
    · exact hskip
    · exact hskip
    · exact hskip
    · have := ih (acc ++ [pr])
      rwa [List.append_assoc, List.singleton_append] at this

/-- C10: each post-processor returns a subsequence of its input — every
survivor keeps exactly its input coordinates (and radius in the
variable-radius variant), survivors keep their relative order, no point is
created, and the output count never exceeds the input count. -/
theorem postprocess_subsequence :
    (∀ (pix : ℤ → ℤ → ℕ) (pts : List (ℤ × ℤ)),
      List.Sublist (postprocessStd pix pts) pts ∧
      (postprocessStd pix pts).length ≤ pts.length) ∧
    (∀ (H W : ℕ) (pix : ℤ → ℤ → ℕ) (l : List ((ℤ × ℤ) × ℚ)),
      List.Sublist (postprocessV2 H W pix l []) l ∧
      (postprocessV2 H W pix l []).length ≤ l.length) := by
  constructor
  · intro pix pts
    have h : List.Sublist (postprocessStd pix pts) pts := List.filter_sublist pts
    exact ⟨h, h.length_le⟩
  · intro H W pix l
    have h := postprocessV2_sublist H W pix l []
    rw [List.nil_append] at h
    exact ⟨h, h.length_le⟩

/-! ### Overlap-freeness of the greedy packing -/

lemma distSqZ_comm (p q : ℤ × ℤ) : distSqZ p q = distSqZ q p := by
  unfold distSqZ; ring

/-- "The discs of `a` and `b` do not overlap":
`euclidean(a, b) > a.radius + b.radius` on exact arithmetic
(`sqrt d2 > s` iff `s < 0` or `s² < d2`). -/
def noOverlapPair (a b : (ℤ × ℤ) × ℚ) : Prop :=
  a.2 + b.2 < 0 ∨ (a.2 + b.2) * (a.2 + b.2) < ((distSqZ a.1 b.1 : ℤ) : ℚ)

lemma noOverlapPair_symm {a b : (ℤ × ℤ) × ℚ} (h : noOverlapPair a b) :
    noOverlapPair b a := by
  unfold noOverlapPair at h ⊢
  rcases h with h | h
  · left; rwa [add_comm]
  · right; rwa [add_comm b.2 a.2, distSqZ_comm b.1 a.1]

lemma overlapsB_eq_false_iff (c : ℤ × ℤ) (r : ℚ) (nn : (ℤ × ℤ) × ℚ) :
    overlapsB c r nn = false ↔ noOverlapPair (c, r) nn := by
  unfold overlapsB noOverlapPair
  rw [Bool.and_eq_false_iff]
  simp only [decide_eq_false_iff_not, not_le]
  rw [distSqZ_comm nn.1 c]

lemma insertByDist_perm (c : ℤ × ℤ) (a : (ℤ × ℤ) × ℚ) :
    ∀ l : List ((ℤ × ℤ) × ℚ), List.Perm (insertByDist c a l) (a :: l) := by
  intro l
  induction l with
  | nil => exact List.Perm.refl _
  | cons b bs ih =>
    unfold insertByDist
    split_ifs with h
    · exact List.Perm.refl _
    · exact (ih.cons b).trans (List.Perm.swap a b bs)

lemma sortByDist_perm (c : ℤ × ℤ) :
    ∀ l : List ((ℤ × ℤ) × ℚ), List.Perm (sortByDist c l) l := by
  intro l
  induction l with
  | nil => exact List.Perm.refl _
  | cons a l ih =>
    have : sortByDist c (a :: l) = insertByDist c a (sortByDist c l) := rfl
    rw [this]
    exact (insertByDist_perm c a (sortByDist c l)).trans (ih.cons a)

/-- Invariant of the greedy packing loop: if at most 11 points end up
accepted, every intermediate tree holds at most 10 points when a candidate
is tested, so the 10-nearest-neighbour query covers the whole tree and each
accepted point is non-overlapping with every earlier one. -/
lemma postprocessV2_pairwise (H W : ℕ) (pix : ℤ → ℤ → ℕ) :
    ∀ (rest acc : List ((ℤ × ℤ) × ℚ)),
      acc.Pairwise noOverlapPair →
      (postprocessV2 H W pix rest acc).length ≤ 11 →
      (postprocessV2 H W pix rest acc).Pairwise noOverlapPair := by
  intro rest
  induction rest with
  | nil =>
    intro acc hp _
    simpa [postprocessV2] using hp
  | cons pr rest ih =>
    intro acc hp hlen
    unfold postprocessV2 at hlen ⊢
    split_ifs at hlen ⊢ with h1 h2 h3 h4
    · exact ih acc hp hlen
    · exact ih acc hp hlen
    · exact ih acc hp hlen
    · exact ih acc hp hlen
    · have hany : (nearestNeighbors pr.1 acc).any (overlapsB pr.1 pr.2) = false := by
        cases hval : (nearestNeighbors pr.1 acc).any (overlapsB pr.1 pr.2) with
        | false => rfl
        | true => exact absurd hval h4
      obtain ⟨t, ht⟩ := postprocessV2_extends H W pix rest (acc ++ [pr])
      have hacc : acc.length ≤ 10 := by
        rw [ht] at hlen
        simp only [List.length_append, List.length_cons, List.length_nil] at hlen
        omega
      have hperm := sortByDist_perm pr.1 acc
      have htake : nearestNeighbors pr.1 acc = sortByDist pr.1 acc := by
        unfold nearestNeighbors
        exact List.take_of_length_le (by rw [hperm.length_eq]; omega)
      have hall : ∀ b ∈ acc, noOverlapPair pr b := by
        intro b hb
        have hb' : b ∈ nearestNeighbors pr.1 acc := by
          rw [htake]; exact hperm.mem_iff.mpr hb
        have hfalse : overlapsB pr.1 pr.2 b = false := by
          cases hval : overlapsB pr.1 pr.2 b with
          | false => rfl
          | true => exact absurd (List.any_eq_true.mpr ⟨b, hb', hval⟩) (by rw [hany]; simp)
        exact (overlapsB_eq_false_iff pr.1 pr.2 b).mp hfalse
      have hpair : (acc ++ [pr]).Pairwise noOverlapPair := by
        rw [List.pairwise_append]
        refine ⟨hp, List.pairwise_singleton _ _, ?_⟩
        intro a ha b hb
        rw [List.mem_singleton] at hb
        subst hb
        exact noOverlapPair_symm (hall a ha)
      exact ih (acc ++ [pr]) hpair hlen

/-- C6 (amended): the output of `StippleGeneratorV2._postprocess` is
pairwise overlap-free **whenever it has at most 11 points**: every pair of
distinct accepted `(p, r)` satisfies `euclidean(p1,p2) > r1 + r2`.  (The
`quads` `nearest_neighbors` query checks only the default 10 nearest
accepted points, so with 12 or more accepted points an unchecked farther
neighbour can overlap — see the counterexample.) -/
theorem postprocessV2_overlap_free (H W : ℕ) (pix : ℤ → ℤ → ℕ)
    (l : List ((ℤ × ℤ) × ℚ))
    (hlen : (postprocessV2 H W pix l []).length ≤ 11) :
    (postprocessV2 H W pix l []).Pairwise noOverlapPair :=
  postprocessV2_pairwise H W pix l [] List.Pairwise.nil hlen

/-- Witness for C6: a single accepted point on a 20×20 black image. -/
theorem postprocessV2_overlap_free_witness :
    (postprocessV2 20 20 (fun _ _ => 0) [((5, 5), 0)] []).length ≤ 11 ∧
    (postprocessV2 20 20 (fun _ _ => 0) [((5, 5), 0)] []).Pairwise noOverlapPair := by
  have hlen : (postprocessV2 20 20 (fun _ _ => 0) [((5, 5), 0)] []).length ≤ 11 := by
    simp [postprocessV2, nearestNeighbors, sortByDist]
  exact ⟨hlen, postprocessV2_overlap_free 20 20 (fun _ _ => 0) [((5, 5), 0)] hlen⟩

/-- Twelve points on a 20×20 all-black image: a large disc (radius 8) at
`(10,18)`, ten radius-0 points left of the final candidate, and the
candidate `(10,10)` whose ten nearest accepted neighbours are exactly the
ten radius-0 points — the overlapping large disc is the unchecked 11th. -/
def packingInput : List ((ℤ × ℤ) × ℚ) :=
  [((10, 18), 8),
   ((5, 9), 0), ((6, 9), 0), ((7, 9), 0), ((8, 9), 0), ((9, 9), 0),
   ((10, 9), 0), ((11, 9), 0), ((12, 9), 0), ((13, 9), 0), ((14, 9), 0),
   ((10, 10), 0)]

/-- C6 counterexample: the final output of the variable-radius
post-processor can contain an overlapping pair.  On `packingInput` all 12
points are accepted, yet the accepted pair `((10,18), r=8)` and
`((10,10), r=0)` has Euclidean distance `8 ≤ 8 + 0` — the claimed
`distance > r1 + r2` fails. -/
theorem postprocessV2_overlap_counterexample :
    ((10, 18), (8 : ℚ)) ∈ postprocessV2 20 20 (fun _ _ => 0) packingInput [] ∧
    ((10, 10), (0 : ℚ)) ∈ postprocessV2 20 20 (fun _ _ => 0) packingInput [] ∧
    ¬ noOverlapPair ((10, 18), (8 : ℚ)) ((10, 10), (0 : ℚ)) := by
  have h1 : ∀ rest, postprocessV2 20 20 (fun _ _ => 0)
      (((10, 18), (8 : ℚ)) :: ((5, 9), 0) :: ((6, 9), 0) :: ((7, 9), 0) :: rest) []
      = postprocessV2 20 20 (fun _ _ => 0) rest
        [((10, 18), 8), ((5, 9), 0), ((6, 9), 0), ((7, 9), 0)] := by
    intro rest
    norm_num [postprocessV2, nearestNeighbors, sortByDist, insertByDist, overlapsB, distSqZ]
  have h2 : ∀ rest, postprocessV2 20 20 (fun _ _ => 0)
      (((8, 9), (0 : ℚ)) :: ((9, 9), 0) :: ((10, 9), 0) :: ((11, 9), 0) :: rest)
      [((10, 18), 8), ((5, 9), 0), ((6, 9), 0), ((7, 9), 0)]
      = postprocessV2 20 20 (fun _ _ => 0) rest
        [((10, 18), 8), ((5, 9), 0), ((6, 9), 0), ((7, 9), 0), ((8, 9), 0), ((9, 9), 0),
         ((10, 9), 0), ((11, 9), 0)] := by
    intro rest
    norm_num [postprocessV2, nearestNeighbors, sortByDist, insertByDist, overlapsB, distSqZ]
  have h3 : postprocessV2 20 20 (fun _ _ => 0)
      [((12, 9), (0 : ℚ)), ((13, 9), 0), ((14, 9), 0), ((10, 10), 0)]
      [((10, 18), 8), ((5, 9), 0), ((6, 9), 0), ((7, 9), 0), ((8, 9), 0), ((9, 9), 0),
       ((10, 9), 0), ((11, 9), 0)]
      = [((10, 18), 8), ((5, 9), 0), ((6, 9), 0), ((7, 9), 0), ((8, 9), 0), ((9, 9), 0),
         ((10, 9), 0), ((11, 9), 0), ((12, 9), 0), ((13, 9), 0), ((14, 9), 0),
         ((10, 10), 0)] := by
    norm_num [postprocessV2, nearestNeighbors, sortByDist, insertByDist, overlapsB, distSqZ]
  have hout : postprocessV2 20 20 (fun _ _ => 0) packingInput []
      = [((10, 18), 8), ((5, 9), 0), ((6, 9), 0), ((7, 9), 0), ((8, 9), 0), ((9, 9), 0),
         ((10, 9), 0), ((11, 9), 0), ((12, 9), 0), ((13, 9), 0), ((14, 9), 0),
         ((10, 10), 0)] := by
    have hp : packingInput = ((10, 18), (8 : ℚ)) :: ((5, 9), 0) :: ((6, 9), 0)
        :: ((7, 9), 0) :: [((8, 9), 0), ((9, 9), 0), ((10, 9), 0), ((11, 9), 0),
           ((12, 9), 0), ((13, 9), 0), ((14, 9), 0), ((10, 10), 0)] := rfl
    rw [hp, h1, h2, h3]
  refine ⟨by rw [hout]; simp, by rw [hout]; simp, ?_⟩
  unfold noOverlapPair distSqZ
  norm_num

/-! ## Flow Field Builder (`src/preprocessing.py`,
`generate_magnitude_and_angle_maps` / `displacement_to_angle_and_magnitude`,
and the identical private copies in `PreprocessingStippleGenerator`)

The image is Gaussian-blurred (3×3 kernel, σ=1, reflected borders, rounded
back to integers), then per pixel: value 255 → angle of the displacement
from the image center `(H/2, W/2)` to the pixel and magnitude fixed at 10;
value 0 → `(0, 0)`; otherwise a darkest-pixel search over the numpy slice
`smoothed[Y-ws : Y+ws+1, X-ws : X+ws+1]` (raw Python slicing — a negative
start index wraps, it is *not* clamped). -/

section
open Classical

/-- `np.arctan2 y x` by its documented quadrant cases (range `(-π, π]`). -/
noncomputable def arctan2 (y x : ℝ) : ℝ :=
  if 0 < x then Real.arctan (y / x)
  else if x < 0 then
    (if 0 ≤ y then Real.arctan (y / x) + Real.pi else Real.arctan (y / x) - Real.pi)
  else if 0 < y then Real.pi / 2
  else if y < 0 then -(Real.pi / 2)
  else 0

end

/-- Python float `a % b` (for `b > 0`): `a - b * ⌊a / b⌋`. -/
noncomputable def pymod (a b : ℝ) : ℝ :=
  a - b * ⌊a / b⌋

/-- `displacement_to_angle_and_magnitude(y, x)`:
`(arctan2(y,x) % 2π * (180/π), sqrt (x² + y²))` — degrees in `[0, 360)`. -/
noncomputable def displacement_to_angle_and_magnitude (y x : ℝ) : ℝ × ℝ :=
  (pymod (arctan2 y x) (2 * Real.pi) * (180 / Real.pi), Real.sqrt (x ^ 2 + y ^ 2))

/-- Unnormalized σ=1 Gaussian samples `exp(-(i-1)²/2)`, `i = 0, 1, 2`. -/
noncomputable def gaussRaw (i : ℕ) : ℝ :=
  Real.exp (-(((i : ℝ) - 1) ^ 2) / 2)

/-- `cv2.getGaussianKernel(3, 1)`: the normalized 1-D kernel. -/
noncomputable def gaussK (i : ℕ) : ℝ :=
  gaussRaw i / (gaussRaw 0 + gaussRaw 1 + gaussRaw 2)

/-- OpenCV `BORDER_REFLECT_101` index folding for one-off accesses. -/
def reflect101 (n : ℕ) (i : ℤ) : ℤ :=
  if i < 0 then -i else if (n : ℤ) ≤ i then 2 * ((n : ℤ) - 1) - i else i

/-- Image lookup at a (reflected, hence non-negative) integer index. -/
def pixAtZ (pix : ℕ → ℕ → ℕ) (y x : ℤ) : ℕ :=
  pix y.toNat x.toNat

/-- `cv2.GaussianBlur(image, ksize=(3,3), sigmaX=1)` at `(y, x)`: the
separable kernel-weighted sum with reflected borders, rounded back into the
integer image. -/
noncomputable def gaussianBlur (pix : ℕ → ℕ → ℕ) (H W : ℕ) (y x : ℕ) : ℤ :=
  round (∑ i : Fin 3, ∑ j : Fin 3, gaussK i * gaussK j *
    (pixAtZ pix (reflect101 H ((y : ℤ) + (i : ℤ) - 1)) (reflect101 W ((x : ℤ) + (j : ℤ) - 1)) : ℝ))

lemma gaussRaw_pos (i : ℕ) : 0 < gaussRaw i := Real.exp_pos _

lemma gaussK_sum : gaussK 0 + gaussK 1 + gaussK 2 = 1 := by
  have h : 0 < gaussRaw 0 + gaussRaw 1 + gaussRaw 2 := by
    have := gaussRaw_pos 0
    have := gaussRaw_pos 1
    have := gaussRaw_pos 2
    linarith
  unfold gaussK
  field_simp

/-- Blurring a constant image returns the constant: the normalized kernel
sums to 1 and rounding a whole number is exact. -/
lemma gaussianBlur_const (pix : ℕ → ℕ → ℕ) (H W : ℕ) (c : ℕ)
    (hc : ∀ a b, pix a b = c) (y x : ℕ) :
    gaussianBlur pix H W y x = (c : ℤ) := by
  unfold gaussianBlur
  have hval : ∀ (a b : ℤ), (pixAtZ pix a b : ℝ) = (c : ℝ) := by
    intro a b; unfold pixAtZ; rw [hc]
  have hsum : (∑ i : Fin 3, ∑ j : Fin 3, gaussK i * gaussK j *
      (pixAtZ pix (reflect101 H ((y : ℤ) + (i : ℤ) - 1)) (reflect101 W ((x : ℤ) + (j : ℤ) - 1)) : ℝ))
      = (c : ℝ) := by
    have hrw : ∀ i j : Fin 3, gaussK i * gaussK j *
        (pixAtZ pix (reflect101 H ((y : ℤ) + (i : ℤ) - 1)) (reflect101 W ((x : ℤ) + (j : ℤ) - 1)) : ℝ)
        = gaussK i * gaussK j * (c : ℝ) := by
      intro i j; rw [hval]
    simp only [hrw]
    rw [Fin.sum_univ_three]
    rw [Fin.sum_univ_three, Fin.sum_univ_three, Fin.sum_univ_three]
    simp only [Fin.val_zero, Fin.val_one, Fin.val_two]
    have h := gaussK_sum
    linear_combination ((c : ℝ) * (gaussK 0 + gaussK 1 + gaussK 2 + 1)) * h
  rw [hsum, round_natCast]

/-- Python slice `l[start : stop]` (unit step) over an axis of length `n`:
the selected absolute indices.  A negative bound wraps by `+ n` (then
clamps at 0); a non-negative bound clamps at `n`. -/
def pySliceIdx (n : ℕ) (start stop : ℤ) : List ℕ :=
  List.map (fun k => ((if start < 0 then max (start + n) 0 else min start n) + (k : ℤ)).toNat)
    (List.range ((if stop < 0 then max (stop + n) 0 else min stop n)
      - (if start < 0 then max (start + n) 0 else min start n)).toNat)

/-- The window the spec mandates: indices of `[start, stop)` clamped to
`[0, n)`.  Modelled from the spec: "clamp the window to image bounds". -/
def clampedSliceIdx (n : ℕ) (start stop : ℤ) : List ℕ :=
  (List.range n).filter (fun i => decide (start ≤ (i : ℤ) ∧ (i : ℤ) < stop))

/-- The roi of the darkest-pixel search, as relative `(row, col)` positions
paired with values, in the row-major order scanned by `cv2.minMaxLoc`. -/
def roiEntries (sm : ℕ → ℕ → ℤ) (rows cols : List ℕ) : List ((ℕ × ℕ) × ℤ) :=
  ((List.range rows.length).product (List.range cols.length)).map
    (fun rc => (rc, sm (rows.getD rc.1 0) (cols.getD rc.2 0)))

/-- `cv2.minMaxLoc`'s minimum location: the first strict minimum in scan
order; errors (`none`) on an empty matrix. -/
def minLocOf (entries : List ((ℕ × ℕ) × ℤ)) : Option ((ℕ × ℕ) × ℤ) :=
  entries.foldl (fun best e =>
    match best with
    | none => some e
    | some b => if e.2 < b.2 then some e else some b) none

/-- The per-pixel body of `generate_magnitude_and_angle_maps` on the
blurred image `sm` (also the body of
`PreprocessingStippleGenerator._generate_magnitude_and_angle_maps`): the
`(angle, magnitude)` written at `(Y, X)`, or `none` when the raw window
slice is empty and `cv2.minMaxLoc` faults. -/
noncomputable def generateMapsCore (sm : ℕ → ℕ → ℤ) (H W ws : ℕ) (Y X : ℕ) :
    Option (ℝ × ℝ) :=
  if sm Y X = 255 then
    some ((displacement_to_angle_and_magnitude ((Y : ℝ) - (H : ℝ) / 2)
      ((X : ℝ) - (W : ℝ) / 2)).1, 10)
  else if sm Y X = 0 then some (0, 0)
  else
    match minLocOf (roiEntries sm
        (pySliceIdx H ((Y : ℤ) - ws) ((Y : ℤ) + ws + 1))
        (pySliceIdx W ((X : ℤ) - ws) ((X : ℤ) + ws + 1))) with
    | none => none
    | some m =>
      some (displacement_to_angle_and_magnitude
        ((m.1.1 : ℝ) - (ws : ℝ)) ((m.1.2 : ℝ) - (ws : ℝ)))

/-- `generate_magnitude_and_angle_maps(image, window_size)` at pixel
`(Y, X)`: blur, then the per-pixel branch. -/
noncomputable def generate_magnitude_and_angle_maps (pix : ℕ → ℕ → ℕ) (H W ws : ℕ)
    (Y X : ℕ) : Option (ℝ × ℝ) :=
  generateMapsCore (fun y x => gaussianBlur pix H W y x) H W ws Y X

/-! ### Angle computations for the flow-field scenario -/

lemma angle_neg_diag : (displacement_to_angle_and_magnitude (-(5/2) : ℝ) (-(5/2))).1 = 225 := by
  unfold displacement_to_angle_and_magnitude pymod arctan2
  rw [if_neg (by norm_num : ¬ (0 : ℝ) < -(5/2)), if_pos (by norm_num : (-(5/2) : ℝ) < 0),
    if_neg (by norm_num : ¬ (0 : ℝ) ≤ -(5/2))]
  dsimp only
  rw [show (-(5/2) : ℝ) / (-(5/2)) = 1 by norm_num, Real.arctan_one]
  have hpi : Real.pi ≠ 0 := Real.pi_ne_zero
  have h1 : (Real.pi / 4 - Real.pi) / (2 * Real.pi) = -3/8 := by
    field_simp
    ring
  rw [h1, show (⌊(-3/8 : ℝ)⌋ : ℤ) = -1 by
    rw [Int.floor_eq_iff] <;> norm_num]
  push_cast
  field_simp
  ring

lemma angle_pos_diag : (displacement_to_angle_and_magnitude (2 : ℝ) 2).1 = 45 := by
  unfold displacement_to_angle_and_magnitude pymod arctan2
  rw [if_pos (by norm_num : (0 : ℝ) < 2)]
  dsimp only
  rw [show (2 : ℝ) / 2 = 1 by norm_num, Real.arctan_one]
  have hpi : Real.pi ≠ 0 := Real.pi_ne_zero
  have h1 : (Real.pi / 4) / (2 * Real.pi) = 1/8 := by
    field_simp
    ring
  rw [h1, show (⌊(1/8 : ℝ)⌋ : ℤ) = 0 by norm_num [Int.floor_eq_iff]]
  push_cast
  field_simp
  ring

/-- Evaluation of the flow-field maps on the all-255 5×5 image: the blur
keeps every pixel 255, so every pixel takes the background branch. -/
lemma flowmap_allWhite_eval (Y X : ℕ) :
    generate_magnitude_and_angle_maps (fun _ _ => 255) 5 5 1 Y X
      = some ((displacement_to_angle_and_magnitude
          ((Y : ℝ) - (5 : ℝ) / 2) ((X : ℝ) - (5 : ℝ) / 2)).1, 10) := by
  unfold generate_magnitude_and_angle_maps generateMapsCore
  have hb : gaussianBlur (fun _ _ => 255) 5 5 Y X = (255 : ℤ) :=
    gaussianBlur_const _ 5 5 255 (fun _ _ => rfl) Y X
  rw [if_pos hb]
  norm_num

/-- C4 (amended): on a 5×5 all-255 image with `windowSize = 1`,
`generate_magnitude_and_angle_maps` gives every pixel magnitude exactly 10
and the angle of the displacement **from the image center
`(H/2, W/2) = (2.5, 2.5)` to the pixel** — i.e. pointing away from the
center, not toward it, and the center is `(2.5, 2.5)`, not `(2, 2)`. -/
theorem flowfield_allWhite_center_homing (Y X : ℕ) (hY : Y < 5) (hX : X < 5) :
    generate_magnitude_and_angle_maps (fun _ _ => 255) 5 5 1 Y X
      = some ((displacement_to_angle_and_magnitude
          ((Y : ℝ) - (5 : ℝ) / 2) ((X : ℝ) - (5 : ℝ) / 2)).1, 10) :=
  flowmap_allWhite_eval Y X

/-- Witness for C4: the pixel `(1, 3)` of the 5×5 all-255 image. -/
theorem flowfield_allWhite_center_homing_witness :
    (1 < 5 ∧ 3 < 5) ∧
    generate_magnitude_and_angle_maps (fun _ _ => 255) 5 5 1 1 3
      = some ((displacement_to_angle_and_magnitude
          ((1 : ℝ) - (5 : ℝ) / 2) ((3 : ℝ) - (5 : ℝ) / 2)).1, 10) := by
  refine ⟨⟨by decide, by decide⟩, ?_⟩
  have h := flowfield_allWhite_center_homing 1 3 (by decide) (by decide)
  rw [h]
  norm_num

/-- C4 counterexample: at pixel `(0, 0)` of the all-255 5×5 image the code
produces angle `225°` (pointing from the center `(2.5, 2.5)` out to the
pixel), while an angle pointing from `(0, 0)` toward the claimed center
`(2, 2)` would be `45°` (displacement `(2-0, 2-0)`). -/
theorem flowfield_angle_counterexample :
    generate_magnitude_and_angle_maps (fun _ _ => 255) 5 5 1 0 0 = some (225, 10) ∧
    (displacement_to_angle_and_magnitude ((2 : ℝ) - 0) ((2 : ℝ) - 0)).1 = 45 ∧
    (225 : ℝ) ≠ 45 := by
  refine ⟨?_, ?_, by norm_num⟩
  · have harg : ((0 : ℕ) : ℝ) - (5 : ℝ) / 2 = -(5/2) := by norm_num
    rw [flowmap_allWhite_eval 0 0, harg, angle_neg_diag]
  · have harg : (2 : ℝ) - 0 = 2 := by norm_num
    rw [harg, angle_pos_diag]

/-- C7: the darkest-pixel window is **not** clamped at the top/left border.
For a (blurred) 5×5 image whose pixel `(0, 0)` has the mid intensity 128
(taking the darkest-pixel branch) and `windowSize = 1`, the numpy slice
`smoothed[-1 : 2, -1 : 2]` wraps its negative start and is **empty**
(Python slice semantics), while the clamped window the spec mandates is the
non-empty `{0, 1} × {0, 1}`; `cv2.minMaxLoc` faults on the empty roi
(`none`) instead of returning an angle toward the darkest in-bounds
pixel. -/
theorem flowfield_border_window_not_clamped :
    pySliceIdx 5 ((0 : ℤ) - 1) ((0 : ℤ) + 1 + 1) = [] ∧
    clampedSliceIdx 5 ((0 : ℤ) - 1) ((0 : ℤ) + 1 + 1) = [0, 1] ∧
    generateMapsCore (fun y x => if y = 0 ∧ x = 0 then 128 else 255) 5 5 1 0 0 = none := by
  exact ⟨by decide, by decide, rfl⟩

end Spattering
